import Mathlib

/-!
Verification of the lock-free hash map and its hazard-pointer reclamation
subsystem (`src/include/lockfree_hashmap.hpp`, `src/include/hazard_pointer.hpp`).

The embedding is sequential: each operation of the C++ source is a loop whose
body reads the bucket, walks the chain, and commits with a CAS.  With no
interfering thread every validation re-read returns the value just read and
every CAS succeeds, so one loop iteration runs and the operation denotes a
pure function on the map state.  A bucket chain is modelled as a `List` of
nodes: the head of the list is the node the bucket's atomic head pointer
points to, and each node's `next` pointer is the following list element
(`[]` is `nullptr`).  Machine pointers that only matter by identity
(hazard-pointer payloads) are modelled as `Nat`.

Concurrency-only control flow (what happens after a *failed* CAS, and the
hazard-announcement protocol of `get`) is modelled separately: the failed-CAS
continuation of `remove` as a function of the value the failed
`compare_exchange_weak` writes back, and the traversal of `get` as an explicit
event trace recording every atomic load, hazard publication and validation
the source performs.
-/

set_option autoImplicit false

namespace LockFreeMap

/-- A chain node (`LockFreeHashMap::Node`): immutable `key`, in-place mutable
`value`.  The `next` pointer of the source is represented by list adjacency
in a `Chain`. -/
structure Node (K V : Type) where
  key : K
  value : V
  deriving DecidableEq, Repr

/-- A bucket chain: the list of nodes reachable from a bucket head by
following `next`, head first.  `[]` is a null bucket head. -/
abbrev Chain (K V : Type) := List (Node K V)

/-- The map state (`LockFreeHashMap`): the fixed array of bucket heads, the
`capacity` member, and the `std::hash<K>` member modelled as a function
`K → Nat`. -/
structure LockFreeHashMap (K V : Type) where
  buckets : List (Chain K V)
  capacity : Nat
  hasher : K → Nat

/-- The constructor `LockFreeHashMap(size_t initial_capacity)`: it allocates
`initial_capacity` buckets and stores `nullptr` into each.  The source
performs no validation of the capacity argument; in particular capacity `0`
is accepted and yields an empty bucket array. -/
def mkLockFreeHashMap (K V : Type) (hasher : K → Nat) (initial_capacity : Nat) :
    LockFreeHashMap K V :=
  { buckets := List.replicate initial_capacity []
    capacity := initial_capacity
    hasher := hasher }

variable {K V : Type}

/-- `get_bucket_index`: `hasher(key) % capacity`.  In C++ the remainder by
zero is undefined behaviour; Lean's `%` totalises it (`n % 0 = n`), and every
theorem about bucket access assumes a positive capacity. -/
def get_bucket_index (m : LockFreeHashMap K V) (key : K) : Nat :=
  m.hasher key % m.capacity

/-- The chain rooted at bucket `i` (`buckets[i].load()`).  Out-of-range
access is undefined behaviour in the source; the model totalises it to the
empty chain. -/
def bucket (m : LockFreeHashMap K V) (i : Nat) : Chain K V :=
  m.buckets.getD i []

variable [DecidableEq K]

/-- The search loop of `insert` (lines 68-79): walk the chain; at the first
node whose key equals `key`, overwrite its value in place and return the
updated chain (`some`); if the end of the chain is reached, return `none`
(key absent). -/
def insertWalk (key : K) (value : V) : Chain K V → Option (Chain K V)
  | [] => none
  | n :: rest =>
    if n.key = key then some ({ n with value := value } :: rest)
    else (insertWalk key value rest).map (n :: ·)

/-- `insert(key, value)` (lines 52-92), sequential denotation: if the walk
finds the key, the value is updated in place and `false` (*updated*) is
returned; otherwise a new node is linked at the bucket head with its `next`
set to the observed head, and `true` (*inserted*) is returned. -/
def insert (m : LockFreeHashMap K V) (key : K) (value : V) :
    LockFreeHashMap K V × Bool :=
  let index := get_bucket_index m key
  let head := bucket m index
  match insertWalk key value head with
  | some c => ({ m with buckets := m.buckets.set index c }, false)
  | none => ({ m with buckets := m.buckets.set index (⟨key, value⟩ :: head) }, true)

/-- The traversal loop of `get` (lines 108-121): first node whose key equals
`key` yields its value; end of chain yields `none`. -/
def getWalk (key : K) : Chain K V → Option V
  | [] => none
  | n :: rest => if n.key = key then some n.value else getWalk key rest

/-- `get(key, value&)` (lines 94-126), sequential denotation: `some v` models
`value = v; return true` (*found*), `none` models `return false`
(*not found*).  The operation stores to no bucket and no node field. -/
def get (m : LockFreeHashMap K V) (key : K) : Option V :=
  getWalk key (bucket m (get_bucket_index m key))

/-- The search loop of `remove` (lines 146-179): locate the first node whose
key equals `key`, returning it together with the chain left after the unlink
CAS swings the bucket head (if it is the head) or the predecessor's `next`
(otherwise) to its successor.  `none` if the key is absent. -/
def removeWalk (key : K) : Chain K V → Option (Node K V × Chain K V)
  | [] => none
  | n :: rest =>
    if n.key = key then some (n, rest)
    else (removeWalk key rest).map (fun p => (p.1, n :: p.2))

/-- `remove(key)` (lines 128-186), sequential denotation.  The `Bool` is the
return value (*removed* / *absent*); the `Option (Node K V)` is the node
handed to `hp_manager.retire` (the exact node unlinked), `none` when the key
was not found and the map is left unchanged. -/
def remove (m : LockFreeHashMap K V) (key : K) :
    LockFreeHashMap K V × Bool × Option (Node K V) :=
  let index := get_bucket_index m key
  let head := bucket m index
  match removeWalk key head with
  | some nc => ({ m with buckets := m.buckets.set index nc.2 }, true, some nc.1)
  | none => (m, false, none)

/-- Outcome of the control flow that follows a failed unlink CAS inside
`remove`. -/
inductive RemoveOutcome where
  | ret (result : Bool)
  | restart
  deriving DecidableEq, Repr

/-- The continuation of `remove` after a *failed* unlink CAS (lines 152-184).
`compare_exchange_weak` writes the observed value of the target location back
into its expected argument; for the head CAS that argument is `head`, leaving
`current` the matched (non-null) node, while for the predecessor CAS the
argument is `current` itself, so `current` becomes the observed value of
`prev->next`.  Both branches then `break` out of the walk, after which
`remove` returns `false` if `current == nullptr` (line 182-184) and otherwise
falls through to the next iteration of the outer `while (true)` loop.
`current_after` is the value of `current` at the `break`. -/
def remove_after_failed_cas (current_after : Option (Chain K V)) : RemoveOutcome :=
  match current_after with
  | none => RemoveOutcome.ret false
  | some _ => RemoveOutcome.restart

/-- The keys of a chain, in chain order. -/
def chainKeys (c : Chain K V) : List K := c.map Node.key

/-- Structural well-formedness of the bucket array: the `capacity` member
agrees with the length of the bucket vector (as established by the
constructor) and is positive, so `get_bucket_index` lands inside the vector. -/
def GoodCap (m : LockFreeHashMap K V) : Prop :=
  m.capacity = m.buckets.length ∧ 0 < m.capacity

/-- Map invariant: good capacity, no duplicate keys inside any chain, and
every node sits in the bucket its key hashes to. -/
def WF (m : LockFreeHashMap K V) : Prop :=
  GoodCap m ∧
  (∀ i, i < m.buckets.length → (chainKeys (bucket m i)).Nodup) ∧
  (∀ i, i < m.buckets.length → ∀ n ∈ bucket m i, m.hasher n.key % m.capacity = i)

instance decGoodCap (m : LockFreeHashMap K V) : Decidable (GoodCap m) := by
  unfold GoodCap
  infer_instance

instance decWF [DecidableEq V] (m : LockFreeHashMap K V) : Decidable (WF m) := by
  unfold WF GoodCap
  infer_instance

/-! ### Characterisation of the chain walks -/

@[simp]
theorem chainKeys_nil : chainKeys ([] : Chain K V) = [] := rfl

@[simp]
theorem chainKeys_cons (n : Node K V) (c : Chain K V) :
    chainKeys (n :: c) = n.key :: chainKeys c := rfl

@[simp]
theorem chainKeys_append (c₁ c₂ : Chain K V) :
    chainKeys (c₁ ++ c₂) = chainKeys c₁ ++ chainKeys c₂ := by
  simp [chainKeys]

theorem insertWalk_eq_none_iff {key : K} {v : V} {c : Chain K V} :
    insertWalk key v c = none ↔ key ∉ chainKeys c := by
  induction c with
  | nil => simp [insertWalk]
  | cons n rest ih =>
    by_cases hk : n.key = key
    · simp [insertWalk, hk]
    · simp [insertWalk, hk, Option.map_eq_none', ih, Ne.symm hk]

theorem insertWalk_eq_some {key : K} {v : V} {c c' : Chain K V}
    (h : insertWalk key v c = some c') :
    ∃ l₁ n l₂, c = l₁ ++ n :: l₂ ∧ n.key = key ∧ key ∉ chainKeys l₁ ∧
      c' = l₁ ++ Node.mk key v :: l₂ := by
  induction c generalizing c' with
  | nil => simp [insertWalk] at h
  | cons n rest ih =>
    by_cases hk : n.key = key
    · refine ⟨[], n, rest, by simp, hk, by simp, ?_⟩
      simp only [insertWalk, if_pos hk, Option.some.injEq] at h
      simp [← h, ← hk]
    · simp only [insertWalk, if_neg hk, Option.map_eq_some'] at h
      obtain ⟨c'', hc'', rfl⟩ := h
      obtain ⟨l₁, n', l₂, hrest, hkey, hnotmem, hc'⟩ := ih hc''
      exact ⟨n :: l₁, n', l₂, by simp [hrest], hkey, by simp [hnotmem, Ne.symm hk],
        by simp [hc']⟩

theorem getWalk_eq_none_iff {key : K} {c : Chain K V} :
    getWalk key c = none ↔ key ∉ chainKeys c := by
  induction c with
  | nil => simp [getWalk]
  | cons n rest ih =>
    by_cases hk : n.key = key
    · simp [getWalk, hk]
    · simp [getWalk, hk, ih, Ne.symm hk]

theorem getWalk_isSome_iff {key : K} {c : Chain K V} :
    (getWalk key c).isSome = true ↔ key ∈ chainKeys c := by
  cases hs : getWalk key c with
  | none => simpa using getWalk_eq_none_iff.mp hs
  | some v =>
    have : ¬ (getWalk key c = none) := by simp [hs]
    rw [getWalk_eq_none_iff] at this
    simpa using not_not.mp this

theorem getWalk_append_of_not_mem {key : K} {l₁ : Chain K V} (c : Chain K V)
    (h : key ∉ chainKeys l₁) : getWalk key (l₁ ++ c) = getWalk key c := by
  induction l₁ with
  | nil => simp
  | cons n rest ih =>
    simp only [chainKeys_cons, List.mem_cons, not_or] at h
    simp [getWalk, Ne.symm h.1, ih h.2]

@[simp]
theorem getWalk_cons_self {key : K} {v : V} (c : Chain K V) :
    getWalk key (Node.mk key v :: c) = some v := by
  simp [getWalk]

theorem removeWalk_eq_none_iff {key : K} {c : Chain K V} :
    removeWalk key c = none ↔ key ∉ chainKeys c := by
  induction c with
  | nil => simp [removeWalk]
  | cons n rest ih =>
    by_cases hk : n.key = key
    · simp [removeWalk, hk]
    · simp [removeWalk, hk, Option.map_eq_none', ih, Ne.symm hk]

theorem removeWalk_eq_some {key : K} {c : Chain K V} {nc : Node K V × Chain K V}
    (h : removeWalk key c = some nc) :
    ∃ l₁ l₂, c = l₁ ++ nc.1 :: l₂ ∧ nc.1.key = key ∧ key ∉ chainKeys l₁ ∧
      nc.2 = l₁ ++ l₂ := by
  induction c generalizing nc with
  | nil => simp [removeWalk] at h
  | cons n₀ rest ih =>
    by_cases hk : n₀.key = key
    · simp only [removeWalk, if_pos hk, Option.some.injEq] at h
      exact ⟨[], rest, by simp [← h], by simp [← h, hk], by simp, by simp [← h]⟩
    · simp only [removeWalk, if_neg hk, Option.map_eq_some'] at h
      obtain ⟨p, hp, rfl⟩ := h
      obtain ⟨l₁, l₂, hrest, hkey, hnotmem, hsnd⟩ := ih hp
      exact ⟨n₀ :: l₁, l₂, by simp [hrest], hkey, by simp [hnotmem, Ne.symm hk],
        by simp [hsnd]⟩

/-! ### Bucket array access -/

theorem bucket_set_self {m : LockFreeHashMap K V} {i : Nat} {c : Chain K V}
    (h : i < m.buckets.length) :
    bucket { m with buckets := m.buckets.set i c } i = c := by
  simp [bucket, List.getD_eq_getElem?_getD, List.getElem?_set_self h]

theorem bucket_set_ne {m : LockFreeHashMap K V} {i j : Nat} {c : Chain K V}
    (h : i ≠ j) :
    bucket { m with buckets := m.buckets.set i c } j = bucket m j := by
  simp [bucket, List.getD_eq_getElem?_getD, List.getElem?_set_ne h]

theorem index_lt_of_goodCap {m : LockFreeHashMap K V} (h : GoodCap m) (key : K) :
    get_bucket_index m key < m.buckets.length := by
  obtain ⟨hlen, hpos⟩ := h
  simpa [get_bucket_index, hlen] using Nat.mod_lt _ (hlen ▸ hpos)

/-! ### Structural facts about the operations -/

theorem insert_capacity (m : LockFreeHashMap K V) (key : K) (value : V) :
    (insert m key value).1.capacity = m.capacity := by
  simp only [insert]
  split <;> rfl

theorem insert_hasher (m : LockFreeHashMap K V) (key : K) (value : V) :
    (insert m key value).1.hasher = m.hasher := by
  simp only [insert]
  split <;> rfl

theorem insert_buckets_length (m : LockFreeHashMap K V) (key : K) (value : V) :
    (insert m key value).1.buckets.length = m.buckets.length := by
  simp only [insert]
  split <;> simp

theorem remove_capacity (m : LockFreeHashMap K V) (key : K) :
    (remove m key).1.capacity = m.capacity := by
  simp only [remove]
  split <;> rfl

theorem remove_hasher (m : LockFreeHashMap K V) (key : K) :
    (remove m key).1.hasher = m.hasher := by
  simp only [remove]
  split <;> rfl

theorem remove_buckets_length (m : LockFreeHashMap K V) (key : K) :
    (remove m key).1.buckets.length = m.buckets.length := by
  simp only [remove]
  split <;> simp

theorem goodCap_insert {m : LockFreeHashMap K V} (h : GoodCap m) (key : K) (value : V) :
    GoodCap (insert m key value).1 :=
  ⟨by rw [insert_capacity, insert_buckets_length]; exact h.1,
   by rw [insert_capacity]; exact h.2⟩

theorem goodCap_remove {m : LockFreeHashMap K V} (h : GoodCap m) (key : K) :
    GoodCap (remove m key).1 :=
  ⟨by rw [remove_capacity, remove_buckets_length]; exact h.1,
   by rw [remove_capacity]; exact h.2⟩

theorem get_bucket_index_insert (m : LockFreeHashMap K V) (key k : K) (value : V) :
    get_bucket_index (insert m key value).1 k = get_bucket_index m k := by
  unfold get_bucket_index
  rw [insert_capacity, insert_hasher]

theorem get_bucket_index_remove (m : LockFreeHashMap K V) (key k : K) :
    get_bucket_index (remove m key).1 k = get_bucket_index m k := by
  unfold get_bucket_index
  rw [remove_capacity, remove_hasher]

/-- The bucket of `key` after an updating `insert key value` is the chain the
walk rewrote. -/
theorem bucket_insert_self_of_some {m : LockFreeHashMap K V} {key : K} {value : V}
    {c : Chain K V} (h : GoodCap m)
    (hiw : insertWalk key value (bucket m (get_bucket_index m key)) = some c) :
    bucket (insert m key value).1 (get_bucket_index m key) = c := by
  have hlt := index_lt_of_goodCap h key
  simp only [insert, hiw]
  exact bucket_set_self hlt

/-- The bucket of `key` after an inserting `insert key value` is the new node
followed by the observed head. -/
theorem bucket_insert_self_of_none {m : LockFreeHashMap K V} {key : K} {value : V}
    (h : GoodCap m)
    (hiw : insertWalk key value (bucket m (get_bucket_index m key)) = none) :
    bucket (insert m key value).1 (get_bucket_index m key) =
      Node.mk key value :: bucket m (get_bucket_index m key) := by
  have hlt := index_lt_of_goodCap h key
  simp only [insert, hiw]
  exact bucket_set_self hlt

theorem bucket_insert_ne {m : LockFreeHashMap K V} {j : Nat} (key : K) (value : V)
    (h : j ≠ get_bucket_index m key) :
    bucket (insert m key value).1 j = bucket m j := by
  simp only [insert]
  split <;> simp [bucket_set_ne (Ne.symm h)]

theorem bucket_remove_ne {m : LockFreeHashMap K V} {j : Nat} (key : K)
    (h : j ≠ get_bucket_index m key) :
    bucket (remove m key).1 j = bucket m j := by
  simp only [remove]
  split <;> simp [bucket_set_ne (Ne.symm h)]

/-- After a successful `remove key`, the bucket of `key` holds the chain with
the located node spliced out. -/
theorem bucket_remove_self_of_some {m : LockFreeHashMap K V} {key : K}
    {nc : Node K V × Chain K V} (h : GoodCap m)
    (hrw : removeWalk key (bucket m (get_bucket_index m key)) = some nc) :
    bucket (remove m key).1 (get_bucket_index m key) = nc.2 := by
  have hlt := index_lt_of_goodCap h key
  simp only [remove, hrw]
  exact bucket_set_self hlt

/-- `remove` of an absent key returns `(m, false, none)`: the map is left
unchanged. -/
theorem remove_of_none {m : LockFreeHashMap K V} {key : K}
    (hrw : removeWalk key (bucket m (get_bucket_index m key)) = none) :
    remove m key = (m, false, none) := by
  simp only [remove, hrw]

/-! ### Lookup after insert and remove -/

/-- Replacing a mid-chain node by one with the same key does not change what
a walk for a *different* key finds. -/
theorem getWalk_middle_congr {k : K} {n n' : Node K V} (l₁ l₂ : Chain K V)
    (hkey : n'.key = n.key) (hne : n.key ≠ k) :
    getWalk k (l₁ ++ n' :: l₂) = getWalk k (l₁ ++ n :: l₂) := by
  induction l₁ with
  | nil => simp [getWalk, hkey, hne]
  | cons n₀ rest ih => simp [getWalk, ih]

/-- Deleting a mid-chain node does not change what a walk for a different
key finds. -/
theorem getWalk_middle_erase {k : K} (l₁ l₂ : Chain K V) {n : Node K V}
    (hne : n.key ≠ k) :
    getWalk k (l₁ ++ n :: l₂) = getWalk k (l₁ ++ l₂) := by
  induction l₁ with
  | nil => simp [getWalk, hne]
  | cons n₀ rest ih => simp [getWalk, ih]

theorem get_insert_self {m : LockFreeHashMap K V} (h : GoodCap m) (key : K) (value : V) :
    get (insert m key value).1 key = some value := by
  rw [get, get_bucket_index_insert]
  cases hiw : insertWalk key value (bucket m (get_bucket_index m key)) with
  | none => rw [bucket_insert_self_of_none h hiw]; simp
  | some c =>
    rw [bucket_insert_self_of_some h hiw]
    obtain ⟨l₁, n, l₂, _, _, hnotmem, rfl⟩ := insertWalk_eq_some hiw
    rw [getWalk_append_of_not_mem _ hnotmem]
    simp

theorem get_insert_ne {m : LockFreeHashMap K V} {key k : K}
    (h : GoodCap m) (hne : k ≠ key) (value : V) :
    get (insert m key value).1 k = get m k := by
  rw [get, get, get_bucket_index_insert]
  by_cases hidx : get_bucket_index m k = get_bucket_index m key
  · rw [hidx]
    cases hiw : insertWalk key value (bucket m (get_bucket_index m key)) with
    | none => rw [bucket_insert_self_of_none h hiw]; simp [getWalk, Ne.symm hne]
    | some c =>
      rw [bucket_insert_self_of_some h hiw]
      obtain ⟨l₁, n, l₂, horig, hkey, _, rfl⟩ := insertWalk_eq_some hiw
      rw [horig]
      exact getWalk_middle_congr l₁ l₂ (by simp [hkey]) (hkey ▸ Ne.symm hne)
  · rw [bucket_insert_ne key value hidx]

theorem get_remove_ne {m : LockFreeHashMap K V} {key k : K}
    (h : GoodCap m) (hne : k ≠ key) :
    get (remove m key).1 k = get m k := by
  rw [get, get, get_bucket_index_remove]
  by_cases hidx : get_bucket_index m k = get_bucket_index m key
  · rw [hidx]
    cases hrw : removeWalk key (bucket m (get_bucket_index m key)) with
    | none => rw [remove_of_none hrw]
    | some nc =>
      rw [bucket_remove_self_of_some h hrw]
      obtain ⟨l₁, l₂, horig, hkey, _, hnc⟩ := removeWalk_eq_some hrw
      rw [horig, hnc]
      exact (getWalk_middle_erase l₁ l₂ (hkey ▸ Ne.symm hne)).symm
  · rw [bucket_remove_ne key hidx]

theorem get_remove_self {m : LockFreeHashMap K V} (h : WF m) (key : K) :
    get (remove m key).1 key = none := by
  obtain ⟨hcap, hnodup, _⟩ := h
  rw [get, get_bucket_index_remove]
  cases hrw : removeWalk key (bucket m (get_bucket_index m key)) with
  | none =>
    rw [remove_of_none hrw]
    exact getWalk_eq_none_iff.mpr (removeWalk_eq_none_iff.mp hrw)
  | some nc =>
    rw [bucket_remove_self_of_some hcap hrw]
    obtain ⟨l₁, l₂, horig, hkey, _, hnc⟩ := removeWalk_eq_some hrw
    have hnd : (chainKeys (bucket m (get_bucket_index m key))).Nodup :=
      hnodup _ (index_lt_of_goodCap hcap key)
    rw [horig] at hnd
    simp only [chainKeys_append, chainKeys_cons, List.nodup_append, List.nodup_cons] at hnd
    rw [hnc, getWalk_eq_none_iff]
    simp only [chainKeys_append, List.mem_append]
    rintro (hmem | hmem)
    · exact hnd.2.2 (hkey ▸ hmem) (by simp [hkey])
    · exact hnd.2.1.1 (hkey ▸ hmem)

/-! ### Preservation of the invariant -/

theorem bucket_mk (hasher : K → Nat) (cap i : Nat) :
    bucket (mkLockFreeHashMap K V hasher cap) i = [] := by
  simp [bucket, mkLockFreeHashMap, List.getD_eq_getElem?_getD, List.getElem?_replicate]
  split <;> rfl

theorem WF_mk (hasher : K → Nat) {cap : Nat} (hpos : 0 < cap) :
    WF (mkLockFreeHashMap K V hasher cap) := by
  refine ⟨⟨by simp [mkLockFreeHashMap], by simpa [mkLockFreeHashMap] using hpos⟩, ?_, ?_⟩
  · intro i _
    simp [bucket_mk]
  · intro i _ n hn
    simp [bucket_mk] at hn

theorem WF_insert {m : LockFreeHashMap K V} (h : WF m) (key : K) (value : V) :
    WF (insert m key value).1 := by
  obtain ⟨hcap, hnodup, hplace⟩ := h
  refine ⟨goodCap_insert hcap key value, ?_, ?_⟩
  · intro i hi
    rw [insert_buckets_length] at hi
    by_cases hidx : i = get_bucket_index m key
    · subst hidx
      cases hiw : insertWalk key value (bucket m (get_bucket_index m key)) with
      | none =>
        rw [bucket_insert_self_of_none hcap hiw]
        exact List.Nodup.cons (insertWalk_eq_none_iff.mp hiw) (hnodup _ hi)
      | some c =>
        rw [bucket_insert_self_of_some hcap hiw]
        obtain ⟨l₁, n, l₂, horig, hkey, _, rfl⟩ := insertWalk_eq_some hiw
        have := hnodup _ hi
        rw [horig] at this
        simpa [hkey] using this
    · rw [bucket_insert_ne key value hidx]
      exact hnodup i hi
  · intro i hi n hn
    rw [insert_buckets_length] at hi
    rw [insert_hasher, insert_capacity]
    by_cases hidx : i = get_bucket_index m key
    · subst hidx
      cases hiw : insertWalk key value (bucket m (get_bucket_index m key)) with
      | none =>
        rw [bucket_insert_self_of_none hcap hiw] at hn
        rcases List.mem_cons.mp hn with rfl | hn
        · rfl
        · exact hplace _ hi n hn
      | some c =>
        rw [bucket_insert_self_of_some hcap hiw] at hn
        obtain ⟨l₁, n₀, l₂, horig, hkey, _, rfl⟩ := insertWalk_eq_some hiw
        have horig' : n₀ ∈ bucket m (get_bucket_index m key) := by
          rw [horig]; simp
        rcases List.mem_append.mp hn with hn | hn
        · exact hplace _ hi n (by rw [horig]; simp [hn])
        · rcases List.mem_cons.mp hn with rfl | hn
          · simpa [hkey] using hplace _ hi n₀ horig'
          · exact hplace _ hi n (by rw [horig]; simp [hn])
    · rw [bucket_insert_ne key value hidx] at hn
      exact hplace i hi n hn

theorem WF_remove {m : LockFreeHashMap K V} (h : WF m) (key : K) :
    WF (remove m key).1 := by
  obtain ⟨hcap, hnodup, hplace⟩ := h
  cases hrw : removeWalk key (bucket m (get_bucket_index m key)) with
  | none => rw [remove_of_none hrw]; exact ⟨hcap, hnodup, hplace⟩
  | some nc =>
    obtain ⟨l₁, l₂, horig, hkey, _, hnc⟩ := removeWalk_eq_some hrw
    have hsub : List.Sublist nc.2 (bucket m (get_bucket_index m key)) := by
      rw [horig, hnc]
      exact (l₂.sublist_cons_self nc.1).append_left l₁
    refine ⟨goodCap_remove hcap key, ?_, ?_⟩
    · intro i hi
      rw [remove_buckets_length] at hi
      by_cases hidx : i = get_bucket_index m key
      · subst hidx
        rw [bucket_remove_self_of_some hcap hrw]
        exact (hnodup _ hi).sublist (hsub.map Node.key)
      · rw [bucket_remove_ne key hidx]
        exact hnodup i hi
    · intro i hi n hn
      rw [remove_buckets_length] at hi
      rw [remove_hasher, remove_capacity]
      by_cases hidx : i = get_bucket_index m key
      · subst hidx
        rw [bucket_remove_self_of_some hcap hrw] at hn
        exact hplace _ hi n (hsub.mem hn)
      · rw [bucket_remove_ne key hidx] at hn
        exact hplace i hi n hn

/-! ### Operation sequences (for the uniqueness invariant) -/

/-- A call to one of the three public operations. -/
inductive Op (K V : Type) where
  | ins (k : K) (v : V)
  | rem (k : K)
  | look (k : K)
  deriving DecidableEq

/-- The state after one operation.  `get` performs no store to any bucket or
node field, so a lookup leaves the state as it is. -/
def applyOp (m : LockFreeHashMap K V) : Op K V → LockFreeHashMap K V
  | Op.ins k v => (insert m k v).1
  | Op.rem k => (remove m k).1
  | Op.look _ => m

/-- The state after a sequence of operations. -/
def runOps (m : LockFreeHashMap K V) : List (Op K V) → LockFreeHashMap K V
  | [] => m
  | op :: rest => runOps (applyOp m op) rest

/-- Key `k` was inserted at some point of the sequence and no later
operation removed it. -/
def insertedNotRemoved (k : K) (ops : List (Op K V)) : Prop :=
  ∃ pre v post, ops = pre ++ Op.ins k v :: post ∧ Op.rem k ∉ post

/-- Number of nodes with key `k` in a chain. -/
def countKeyChain (c : Chain K V) (k : K) : Nat :=
  (c.filter (fun n => n.key = k)).length

/-- Number of nodes with key `k` reachable from any bucket head. -/
def countKey (m : LockFreeHashMap K V) (k : K) : Nat :=
  ∑ i ∈ Finset.range m.buckets.length, countKeyChain (bucket m i) k

theorem WF_applyOp {m : LockFreeHashMap K V} (h : WF m) (op : Op K V) :
    WF (applyOp m op) := by
  cases op with
  | ins k v => exact WF_insert h k v
  | rem k => exact WF_remove h k
  | look k => exact h

theorem WF_runOps {m : LockFreeHashMap K V} (h : WF m) (ops : List (Op K V)) :
    WF (runOps m ops) := by
  induction ops generalizing m with
  | nil => exact h
  | cons op rest ih => exact ih (WF_applyOp h op)

/-- Presence of a key survives any operation that is not a `remove` of that
key. -/
theorem get_isSome_applyOp {m : LockFreeHashMap K V} {k : K} (h : WF m)
    {op : Op K V} (hop : op ≠ Op.rem k) (hsome : (get m k).isSome = true) :
    (get (applyOp m op) k).isSome = true := by
  cases op with
  | ins k' v =>
    by_cases hk : k = k'
    · subst hk
      simp [applyOp, get_insert_self h.1 k v]
    · simpa [applyOp, get_insert_ne h.1 hk v] using hsome
  | rem k' =>
    have hk : k ≠ k' := fun hkk => hop (by rw [hkk])
    simpa [applyOp, get_remove_ne h.1 hk] using hsome
  | look k' => exact hsome

theorem get_isSome_runOps {m : LockFreeHashMap K V} {k : K} (h : WF m)
    {ops : List (Op K V)} (hops : Op.rem k ∉ ops)
    (hsome : (get m k).isSome = true) :
    (get (runOps m ops) k).isSome = true := by
  induction ops generalizing m with
  | nil => exact hsome
  | cons op rest ih =>
    simp only [List.mem_cons, not_or] at hops
    exact ih (WF_applyOp h op) hops.2
      (get_isSome_applyOp h (fun hh => hops.1 hh.symm) hsome)

/-- In a chain without duplicate keys, a present key occupies exactly one
node. -/
theorem countKeyChain_eq_one {c : Chain K V} {k : K}
    (hnd : (chainKeys c).Nodup) (hmem : k ∈ chainKeys c) :
    countKeyChain c k = 1 := by
  induction c with
  | nil => simp at hmem
  | cons n rest ih =>
    simp only [chainKeys_cons, List.nodup_cons] at hnd
    rcases List.mem_cons.mp hmem with rfl | hmem
    · have hrest : (List.filter (fun x => decide (x.key = n.key)) rest).length = 0 := by
        rw [List.length_eq_zero, List.filter_eq_nil_iff]
        intro x hx
        simp only [decide_eq_true_eq]
        exact fun hxk => hnd.1 (hxk ▸ List.mem_map_of_mem (f := Node.key) hx)
      simp [countKeyChain, List.filter_cons, hrest]
    · have hne : n.key ≠ k := fun hh => hnd.1 (hh ▸ hmem)
      simp only [countKeyChain, List.filter_cons, decide_eq_true_eq]
      rw [if_neg (by simpa using hne)]
      exact ih hnd.2 hmem

theorem countKeyChain_eq_zero {c : Chain K V} {k : K} (hmem : k ∉ chainKeys c) :
    countKeyChain c k = 0 := by
  simp only [countKeyChain, List.length_eq_zero, List.filter_eq_nil_iff]
  intro x hx
  simp only [decide_eq_true_eq]
  exact fun hxk => hmem (hxk ▸ List.mem_map_of_mem (f := Node.key) hx)

/-- Under the invariant, no key is reachable in two nodes: the total count of
nodes holding key `k` over all buckets is at most one, and it is exactly one
with the single node in bucket `hash k % capacity` when `k` is present. -/
theorem countKey_le_one {m : LockFreeHashMap K V} (h : WF m) (k : K) :
    countKey m k ≤ 1 ∧
      ((get m k).isSome = true →
        countKeyChain (bucket m (get_bucket_index m k)) k = 1 ∧ countKey m k = 1) := by
  obtain ⟨hcap, hnodup, hplace⟩ := h
  have hidx := index_lt_of_goodCap hcap k
  have hzero : ∀ i, i < m.buckets.length → i ≠ get_bucket_index m k →
      countKeyChain (bucket m i) k = 0 := by
    intro i hi hne
    refine countKeyChain_eq_zero (fun hmem => ?_)
    obtain ⟨n, hn, hnk⟩ := List.mem_map.mp hmem
    exact hne (hnk ▸ hplace i hi n hn ▸ rfl)
  have hsum : countKey m k = countKeyChain (bucket m (get_bucket_index m k)) k := by
    rw [countKey]
    rw [Finset.sum_eq_single_of_mem (get_bucket_index m k) (Finset.mem_range.mpr hidx)]
    intro i hi hne
    exact hzero i (Finset.mem_range.mp hi) hne
  constructor
  · rw [hsum]
    by_cases hmem : k ∈ chainKeys (bucket m (get_bucket_index m k))
    · rw [countKeyChain_eq_one (hnodup _ hidx) hmem]
    · rw [countKeyChain_eq_zero hmem]; omega
  · intro hsome
    have hmem : k ∈ chainKeys (bucket m (get_bucket_index m k)) := by
      rw [← getWalk_isSome_iff]
      exact hsome
    have h1 := countKeyChain_eq_one (hnodup _ hidx) hmem
    exact ⟨h1, hsum ▸ h1⟩

/-! ### Return-value characterisations -/

theorem insert_snd_false_iff (m : LockFreeHashMap K V) (k : K) (v : V) :
    (insert m k v).2 = false ↔ k ∈ chainKeys (bucket m (get_bucket_index m k)) := by
  simp only [insert]
  split <;> rename_i heq
  · simp only [iff_true_intro rfl, true_iff]
    by_contra hmem
    rw [← insertWalk_eq_none_iff (v := v)] at hmem
    simp [hmem] at heq
  · rw [insertWalk_eq_none_iff] at heq
    simp [heq]

theorem insert_snd_true_iff (m : LockFreeHashMap K V) (k : K) (v : V) :
    (insert m k v).2 = true ↔ k ∉ chainKeys (bucket m (get_bucket_index m k)) := by
  rw [← insert_snd_false_iff m k v]
  cases (insert m k v).2 <;> simp

theorem remove_snd_true_iff (m : LockFreeHashMap K V) (k : K) :
    (remove m k).2.1 = true ↔ k ∈ chainKeys (bucket m (get_bucket_index m k)) := by
  simp only [remove]
  split <;> rename_i heq
  · simp only [iff_true_intro rfl, true_iff]
    by_contra hmem
    rw [← removeWalk_eq_none_iff] at hmem
    simp [hmem] at heq
  · rw [removeWalk_eq_none_iff] at heq
    simp [heq]

theorem remove_snd_false_iff (m : LockFreeHashMap K V) (k : K) :
    (remove m k).2.1 = false ↔ k ∉ chainKeys (bucket m (get_bucket_index m k)) := by
  rw [← remove_snd_true_iff m k]
  cases (remove m k).2.1 <;> simp

/-! ## The claims -/

/-- Claim C1: after `insert(k, v)`, `lookup(k)` returns found with value `v`;
and after `insert(k, v)` followed by `insert(k, w)`, `lookup(k)` returns
found with value `w` — lookup returns the most recently inserted value. -/
theorem claim_C1 (m : LockFreeHashMap K V) (k : K) (v w : V) (h : GoodCap m) :
    get (insert m k v).1 k = some v ∧
    get (insert (insert m k v).1 k w).1 k = some w :=
  ⟨get_insert_self h k v, get_insert_self (goodCap_insert h k v) k w⟩

/-- Witness for C1 on a concrete map: capacity 4, identity hash. -/
theorem claim_C1_witness :
    get (insert (mkLockFreeHashMap Nat Nat (fun x => x) 4) 1 10).1 1 = some 10 ∧
    get (insert (insert (mkLockFreeHashMap Nat Nat (fun x => x) 4) 1 10).1 1 20).1 1 =
      some 20 :=
  claim_C1 (mkLockFreeHashMap Nat Nat (fun x => x) 4) 1 10 20 (by decide)

/-- Claim C3: `insert(k, v)` returns *updated* (`false`) iff a node with key
`k` is reachable in `k`'s bucket, and then it overwrites that node's value in
place (same chain, same length, no new node); it returns *inserted* (`true`)
iff no such node exists, and then it links the new node at the bucket head
with its `next` set to the observed head. -/
theorem claim_C3 (m : LockFreeHashMap K V) (k : K) (v : V) (h : GoodCap m) :
    ((insert m k v).2 = false ↔ k ∈ chainKeys (bucket m (get_bucket_index m k))) ∧
    ((insert m k v).2 = true ↔ k ∉ chainKeys (bucket m (get_bucket_index m k))) ∧
    ((insert m k v).2 = false →
      ∃ l₁ n l₂, bucket m (get_bucket_index m k) = l₁ ++ n :: l₂ ∧ n.key = k ∧
        k ∉ chainKeys l₁ ∧
        bucket (insert m k v).1 (get_bucket_index m k) = l₁ ++ Node.mk k v :: l₂ ∧
        (bucket (insert m k v).1 (get_bucket_index m k)).length =
          (bucket m (get_bucket_index m k)).length) ∧
    ((insert m k v).2 = true →
      bucket (insert m k v).1 (get_bucket_index m k) =
        Node.mk k v :: bucket m (get_bucket_index m k)) := by
  refine ⟨insert_snd_false_iff m k v, insert_snd_true_iff m k v, ?_, ?_⟩
  · intro hfalse
    have hmem := (insert_snd_false_iff m k v).mp hfalse
    rw [← Classical.not_not (a := k ∈ chainKeys (bucket m (get_bucket_index m k))),
      ← insertWalk_eq_none_iff (v := v)] at hmem
    cases hiw : insertWalk k v (bucket m (get_bucket_index m k)) with
    | none => exact absurd hiw hmem
    | some c =>
      obtain ⟨l₁, n, l₂, horig, hkey, hnotmem, rfl⟩ := insertWalk_eq_some hiw
      exact ⟨l₁, n, l₂, horig, hkey, hnotmem,
        bucket_insert_self_of_some h hiw, by rw [bucket_insert_self_of_some h hiw, horig]; simp⟩
  · intro htrue
    have hmem := (insert_snd_true_iff m k v).mp htrue
    rw [← insertWalk_eq_none_iff (v := v)] at hmem
    exact bucket_insert_self_of_none h hmem

/-- Witness for C3 on a concrete map holding key 1, both the update and the
insert branch. -/
theorem claim_C3_witness :
    ((insert (insert (mkLockFreeHashMap Nat Nat (fun x => x) 4) 1 10).1 1 20).2 = false) ∧
    ((insert (mkLockFreeHashMap Nat Nat (fun x => x) 4) 1 10).2 = true) := by
  refine ⟨?_, ?_⟩
  · exact (claim_C3 (insert (mkLockFreeHashMap Nat Nat (fun x => x) 4) 1 10).1 1 20
      (by decide)).1.mpr (by decide)
  · exact (claim_C3 (mkLockFreeHashMap Nat Nat (fun x => x) 4) 1 10 (by decide)).2.1.mpr
      (by decide)

/-- Counterexample to claim C4 as stated: after a failed unlink CAS the
operation does not always restart.  When the predecessor CAS fails,
`compare_exchange_weak` writes the observed value of `prev->next` back into
`current`; if that value is `nullptr` (another thread removed the tail node),
`remove` falls out of the walk with `current == nullptr` and returns *absent*
(lines 173-184) instead of restarting. -/
theorem claim_C4_counterexample :
    remove_after_failed_cas (K := Nat) (V := Nat) none = RemoveOutcome.ret false ∧
    remove_after_failed_cas (K := Nat) (V := Nat) none ≠ RemoveOutcome.restart :=
  ⟨rfl, by decide⟩

/-- Claim C4 (amended): `remove(k)` returns *removed* iff a node with key `k`
is reachable in `k`'s bucket, and then that exact node is unlinked — the
bucket head or the predecessor's `next` is swung to its successor — and
handed to `retire`; it returns *absent* iff `k` is not found, leaving the map
unchanged; after a failed unlink CAS the operation restarts whenever
`current` is still non-null, but a failed predecessor CAS that observed null
makes it return *absent* instead. -/
theorem claim_C4_amended (m : LockFreeHashMap K V) (k : K) (h : GoodCap m) :
    ((remove m k).2.1 = true ↔ k ∈ chainKeys (bucket m (get_bucket_index m k))) ∧
    ((remove m k).2.1 = true →
      ∃ l₁ n l₂, bucket m (get_bucket_index m k) = l₁ ++ n :: l₂ ∧ n.key = k ∧
        k ∉ chainKeys l₁ ∧ (remove m k).2.2 = some n ∧
        bucket (remove m k).1 (get_bucket_index m k) = l₁ ++ l₂) ∧
    ((remove m k).2.1 = false ↔ k ∉ chainKeys (bucket m (get_bucket_index m k))) ∧
    ((remove m k).2.1 = false → remove m k = (m, false, none)) ∧
    (∀ c : Chain K V, remove_after_failed_cas (some c) = RemoveOutcome.restart) := by
  refine ⟨remove_snd_true_iff m k, ?_, remove_snd_false_iff m k, ?_, fun c => rfl⟩
  · intro htrue
    have hmem := (remove_snd_true_iff m k).mp htrue
    rw [← Classical.not_not (a := k ∈ chainKeys (bucket m (get_bucket_index m k))),
      ← removeWalk_eq_none_iff] at hmem
    cases hrw : removeWalk k (bucket m (get_bucket_index m k)) with
    | none => exact absurd hrw hmem
    | some nc =>
      obtain ⟨l₁, l₂, horig, hkey, hnotmem, hnc⟩ := removeWalk_eq_some hrw
      refine ⟨l₁, nc.1, l₂, horig, hkey, hnotmem, ?_, ?_⟩
      · simp only [remove, hrw]
      · rw [bucket_remove_self_of_some h hrw, hnc]
  · intro hfalse
    have hmem := (remove_snd_false_iff m k).mp hfalse
    rw [← removeWalk_eq_none_iff] at hmem
    exact remove_of_none hmem

/-- Witness for C4 (amended) on a concrete map: removing a present key and
an absent key. -/
theorem claim_C4_amended_witness :
    (remove (insert (mkLockFreeHashMap Nat Nat (fun x => x) 4) 1 10).1 1).2.1 = true ∧
    (remove (mkLockFreeHashMap Nat Nat (fun x => x) 4) 1).2.1 = false := by
  refine ⟨?_, ?_⟩
  · exact (claim_C4_amended (insert (mkLockFreeHashMap Nat Nat (fun x => x) 4) 1 10).1 1
      (by decide)).1.mpr (by decide)
  · exact (claim_C4_amended (mkLockFreeHashMap Nat Nat (fun x => x) 4) 1
      (by decide)).2.2.1.mpr (by decide)

/-- Claim C5: `insert(k, v); remove(k); lookup(k)` is not-found; a `remove`
of a present key followed by another `remove(k)` returns *removed* then
*absent*, the second being a no-op; and `remove(k)` on an absent key is a
no-op. -/
theorem claim_C5 (m : LockFreeHashMap K V) (k : K) (v : V) (h : WF m) :
    get (remove (insert m k v).1 k).1 k = none ∧
    ((get m k).isSome = true →
      (remove m k).2.1 = true ∧
      remove (remove m k).1 k = ((remove m k).1, false, none)) ∧
    (get m k = none → remove m k = (m, false, none)) := by
  refine ⟨get_remove_self (WF_insert h k v) k, ?_, ?_⟩
  · intro hsome
    have hmem : k ∈ chainKeys (bucket m (get_bucket_index m k)) := by
      rw [← getWalk_isSome_iff]
      exact hsome
    refine ⟨(remove_snd_true_iff m k).mpr hmem, ?_⟩
    have hnone : get (remove m k).1 k = none := get_remove_self h k
    rw [get] at hnone
    rw [getWalk_eq_none_iff, ← removeWalk_eq_none_iff] at hnone
    exact remove_of_none hnone
  · intro hnone
    rw [get, getWalk_eq_none_iff, ← removeWalk_eq_none_iff] at hnone
    exact remove_of_none hnone

/-- Witness for C5 on a concrete map. -/
theorem claim_C5_witness :
    get (remove (insert (mkLockFreeHashMap Nat Nat (fun x => x) 4) 1 10).1 1).1 1 =
      none ∧
    remove (mkLockFreeHashMap Nat Nat (fun x => x) 4) 3 =
      (mkLockFreeHashMap Nat Nat (fun x => x) 4, false, none) := by
  refine ⟨?_, ?_⟩
  · exact (claim_C5 (mkLockFreeHashMap Nat Nat (fun x => x) 4) 1 10 (by decide)).1
  · exact (claim_C5 (mkLockFreeHashMap Nat Nat (fun x => x) 4) 3 10 (by decide)).2.2 rfl

theorem runOps_append (m : LockFreeHashMap K V) (l₁ l₂ : List (Op K V)) :
    runOps m (l₁ ++ l₂) = runOps (runOps m l₁) l₂ := by
  induction l₁ generalizing m with
  | nil => rfl
  | cons op rest ih => simp [runOps, ih]

/-- Claim C2: key uniqueness is an invariant preserved by every operation;
for every key inserted and not subsequently removed, exactly one node with
that key is reachable from `buckets[hash(k) mod capacity]`, and no key ever
appears in two reachable nodes. -/
theorem claim_C2 (hasher : K → Nat) (cap : Nat) (ops : List (Op K V)) (k : K)
    (hpos : 0 < cap) (hk : insertedNotRemoved k ops) :
    (∀ (m : LockFreeHashMap K V) (op : Op K V), WF m → WF (applyOp m op)) ∧
    countKeyChain
      (bucket (runOps (mkLockFreeHashMap K V hasher cap) ops)
        (get_bucket_index (runOps (mkLockFreeHashMap K V hasher cap) ops) k)) k = 1 ∧
    (∀ k2 : K, countKey (runOps (mkLockFreeHashMap K V hasher cap) ops) k2 ≤ 1) := by
  have hwf0 : WF (mkLockFreeHashMap K V hasher cap) := WF_mk hasher hpos
  have hwf : WF (runOps (mkLockFreeHashMap K V hasher cap) ops) := WF_runOps hwf0 ops
  obtain ⟨pre, v, post, rfl, hnorem⟩ := hk
  have hsplit : runOps (mkLockFreeHashMap K V hasher cap) (pre ++ Op.ins k v :: post) =
      runOps (applyOp (runOps (mkLockFreeHashMap K V hasher cap) pre) (Op.ins k v)) post := by
    rw [runOps_append]
    rfl
  have hwf_pre : WF (runOps (mkLockFreeHashMap K V hasher cap) pre) := WF_runOps hwf0 pre
  have hwf_ins : WF (applyOp (runOps (mkLockFreeHashMap K V hasher cap) pre) (Op.ins k v)) :=
    WF_applyOp hwf_pre _
  have hsome : (get (runOps (mkLockFreeHashMap K V hasher cap) (pre ++ Op.ins k v :: post))
      k).isSome = true := by
    rw [hsplit]
    refine get_isSome_runOps hwf_ins hnorem ?_
    simp [applyOp, get_insert_self hwf_pre.1 k v]
  exact ⟨fun m op hm => WF_applyOp hm op, ((countKey_le_one hwf k).2 hsome).1,
    fun k2 => (countKey_le_one hwf k2).1⟩

/-- Witness for C2: a single insert of key 1 into a fresh map of capacity 4. -/
theorem claim_C2_witness :
    countKeyChain
      (bucket (runOps (mkLockFreeHashMap Nat Nat (fun x => x) 4) [Op.ins 1 10])
        (get_bucket_index (runOps (mkLockFreeHashMap Nat Nat (fun x => x) 4)
          [Op.ins 1 10]) 1)) 1 = 1 :=
  (claim_C2 (fun x => x) 4 [Op.ins 1 10] 1 (by decide)
    ⟨[], 10, [], rfl, by decide⟩).2.1

/-- Counterexample to claim C9 as stated: construction with capacity zero
does not fail — the constructor performs no validation and yields a map
handle with an empty bucket array (on which every bucket access is out of
range and the index computation is a remainder by zero, undefined behaviour
in the source). -/
theorem claim_C9_counterexample :
    mkLockFreeHashMap Nat Nat (fun x => x) 0 =
      { buckets := [], capacity := 0, hasher := fun x => x } ∧
    (mkLockFreeHashMap Nat Nat (fun x => x) 0).buckets.length = 0 :=
  ⟨rfl, rfl⟩

/-- Claim C9 (amended): construction with capacity zero is accepted, not
rejected; the constructor validates nothing and produces the map whose
bucket array has exactly `initial_capacity` entries, and for every positive
capacity the bucket-index computation `hash(k) mod capacity` is a valid
bucket index (smaller than the capacity) for every key. -/
theorem claim_C9_amended (hasher : K → Nat) (cap : Nat) (k : K) :
    (mkLockFreeHashMap K V hasher cap).capacity = cap ∧
    (mkLockFreeHashMap K V hasher cap).buckets.length = cap ∧
    (0 < cap → get_bucket_index (mkLockFreeHashMap K V hasher cap) k < cap) := by
  refine ⟨rfl, by simp [mkLockFreeHashMap], fun hpos => ?_⟩
  simpa [get_bucket_index, mkLockFreeHashMap] using Nat.mod_lt (hasher k) hpos

/-- Witness for C9 (amended) at capacity 4 and key 5. -/
theorem claim_C9_amended_witness :
    (mkLockFreeHashMap Nat Nat (fun x => x) 4).capacity = 4 ∧
    (mkLockFreeHashMap Nat Nat (fun x => x) 4).buckets.length = 4 ∧
    get_bucket_index (mkLockFreeHashMap Nat Nat (fun x => x) 4) 5 < 4 := by
  obtain ⟨h1, h2, h3⟩ := claim_C9_amended (K := Nat) (V := Nat) (fun x => x) 4 5
  exact ⟨h1, h2, h3 (by decide)⟩

/-- Claim C10: `insert(k, v)` and `remove(k)` leave every bucket other than
`buckets[hash(k) mod capacity]` — and hence every node reachable from those
buckets — unchanged, and a lookup leaves every bucket and node field of the
map unchanged (`get` performs no store to the map, so its state transition
is the identity). -/
theorem claim_C10 (m : LockFreeHashMap K V) (k : K) (v : V) (j : Nat)
    (hj : j ≠ get_bucket_index m k) :
    bucket (insert m k v).1 j = bucket m j ∧
    bucket (remove m k).1 j = bucket m j ∧
    applyOp m (Op.look k) = m ∧
    (∀ i, bucket (applyOp m (Op.look k)) i = bucket m i) :=
  ⟨bucket_insert_ne k v hj, bucket_remove_ne k hj, rfl, fun _ => rfl⟩

/-- Witness for C10: key 1 hashes to bucket 1 of the concrete map; bucket 0
is untouched by an insert and a remove of key 1. -/
theorem claim_C10_witness :
    bucket (insert (mkLockFreeHashMap Nat Nat (fun x => x) 4) 1 10).1 0 =
      bucket (mkLockFreeHashMap Nat Nat (fun x => x) 4) 0 ∧
    bucket (remove (mkLockFreeHashMap Nat Nat (fun x => x) 4) 1).1 0 =
      bucket (mkLockFreeHashMap Nat Nat (fun x => x) 4) 0 := by
  obtain ⟨h1, h2, _, _⟩ := claim_C10 (mkLockFreeHashMap Nat Nat (fun x => x) 4) 1 10 0
    (by decide)
  exact ⟨h1, h2⟩

/-! ### The hazard-announcement protocol of the lookup traversal

`get` (lines 94-126) interleaves its walk with hazard-slot operations.  The
following event trace records, in program order, every atomic load of a
bucket or `next` field, every store to hazard slot 0, every validation
re-read, and every dereference of a node, exactly as the source performs
them in a traversal without interference.  A pointer value is represented by
the chain hanging off it (`[]` is `nullptr`). -/

/-- One observable action of `get`. -/
inductive GetEvent (K V : Type) where
  /-- `buckets[index].load(acquire)` (line 98). -/
  | loadBucket (p : Chain K V)
  /-- `hp_manager.acquire(0, p)` (lines 101 and 118). -/
  | hpAcquire (p : Chain K V)
  /-- `hp_manager.release(0)` (lines 111 and 123). -/
  | hpRelease
  /-- a validation re-read that compares against the announced pointer
  (line 104 for the head; the spec demands one after every step). -/
  | validate (ok : Bool)
  /-- a dereference of node `n` (`current->key`, `current->value`). -/
  | deref (n : Node K V)
  /-- `current->next.load(acquire)` (line 115). -/
  | loadNext (p : Chain K V)
  deriving DecidableEq, Repr

/-- Events of the inner `while (current != nullptr)` loop (lines 108-121):
dereference the current node's key; on match, read the value and release
(lines 110-112); otherwise load `next` (line 115), publish it into the
hazard slot (line 118) and step (line 120).  No validation re-read occurs
between the publication and the next dereference. -/
def getLoopEvents (key : K) : Chain K V → List (GetEvent K V)
  | [] => [GetEvent.hpRelease]
  | n :: rest =>
    GetEvent.deref n ::
      (if n.key = key then [GetEvent.hpRelease]
       else GetEvent.loadNext rest :: GetEvent.hpAcquire rest :: getLoopEvents key rest)

/-- The full event trace of `get(key)`: load the head (line 98), publish it
(line 101), re-load and compare (line 104, which passes in an
interference-free run), then the loop events. -/
def getEvents (m : LockFreeHashMap K V) (key : K) : List (GetEvent K V) :=
  GetEvent.loadBucket (bucket m (get_bucket_index m key)) ::
  GetEvent.hpAcquire (bucket m (get_bucket_index m key)) ::
  GetEvent.validate true ::
  getLoopEvents key (bucket m (get_bucket_index m key))

/-- Number of validation re-reads in a trace. -/
def countValidate (tr : List (GetEvent K V)) : Nat :=
  (tr.filter fun e => match e with | GetEvent.validate _ => true | _ => false).length

/-- Number of traversal steps (loads of a `next` pointer) in a trace. -/
def countSteps (tr : List (GetEvent K V)) : Nat :=
  (tr.filter fun e => match e with | GetEvent.loadNext _ => true | _ => false).length

/-- The per-step protocol the claim states: every hazard announcement made
while stepping (an `hpAcquire` immediately after a `loadNext`) is immediately
followed by a validation re-read of the predecessor's `next`. -/
def stepsRevalidated : List (GetEvent K V) → Bool
  | GetEvent.loadNext _ :: GetEvent.hpAcquire _ :: rest =>
    (match rest with
     | GetEvent.validate _ :: _ => true
     | _ => false) && stepsRevalidated rest
  | _ :: rest => stepsRevalidated rest
  | [] => true

/-- Publication-before-dereference: scanning the trace while tracking the
announced pointer, every dereferenced node is the head of the chain
currently announced in the hazard slot. -/
def derefsProtectedFrom [DecidableEq V] (hp : Chain K V) :
    List (GetEvent K V) → Bool
  | [] => true
  | GetEvent.hpAcquire p :: rest => derefsProtectedFrom p rest
  | GetEvent.hpRelease :: rest => derefsProtectedFrom [] rest
  | GetEvent.deref n :: rest =>
    (match hp with
     | n₀ :: _ => decide (n₀ = n)
     | [] => false) && derefsProtectedFrom hp rest
  | _ :: rest => derefsProtectedFrom hp rest

theorem countValidate_getLoopEvents (key : K) (c : Chain K V) :
    countValidate (getLoopEvents key c) = 0 := by
  induction c with
  | nil => rfl
  | cons n rest ih =>
    by_cases hk : n.key = key
    · simp [getLoopEvents, countValidate, hk]
    · simp [getLoopEvents, countValidate, hk]
      simpa [countValidate] using ih

theorem derefsProtectedFrom_getLoopEvents [DecidableEq V] (key : K) (c : Chain K V) :
    derefsProtectedFrom c (getLoopEvents key c) = true := by
  induction c with
  | nil => rfl
  | cons n rest ih =>
    by_cases hk : n.key = key <;> simp [getLoopEvents, derefsProtectedFrom, hk, ih]

/-- The loop trace starts with a release or a dereference, never with a
validation. -/
theorem getLoopEvents_head_not_validate (key : K) (c : Chain K V) :
    (∃ t, getLoopEvents key c = GetEvent.hpRelease :: t) ∨
    (∃ n t, getLoopEvents key c = GetEvent.deref n :: t) := by
  cases c with
  | nil => exact Or.inl ⟨[], rfl⟩
  | cons n rest => exact Or.inr ⟨n, _, rfl⟩

theorem stepsRevalidated_getLoopEvents (key : K) (c : Chain K V) :
    stepsRevalidated (getLoopEvents key c) =
      decide (countSteps (getLoopEvents key c) = 0) := by
  induction c with
  | nil => rfl
  | cons n rest ih =>
    by_cases hk : n.key = key
    · simp [getLoopEvents, hk, stepsRevalidated, countSteps]
    · simp only [getLoopEvents, hk, if_false]
      have hhead := getLoopEvents_head_not_validate key rest
      rcases hhead with ⟨t, ht⟩ | ⟨n', t, ht⟩ <;>
        simp [stepsRevalidated, countSteps, ht]

theorem countSteps_getEvents (m : LockFreeHashMap K V) (key : K) :
    countSteps (getEvents m key) =
      countSteps (getLoopEvents key (bucket m (get_bucket_index m key))) := by
  simp [getEvents, countSteps]

/-- Counterexample to claim C6 as stated: a concrete lookup that takes a
traversal step (the key sits in the second node of its chain) performs no
re-validation after publishing the stepped-to pointer — the only validation
in the whole trace is the initial head check, so the per-step
publish-then-revalidate protocol is violated. -/
theorem claim_C6_counterexample :
    0 < countSteps (getEvents
      (insert (insert (mkLockFreeHashMap Nat Nat (fun x => x) 4) 1 10).1 5 50).1 1) ∧
    stepsRevalidated (getEvents
      (insert (insert (mkLockFreeHashMap Nat Nat (fun x => x) 4) 1 10).1 5 50).1 1) =
      false ∧
    countValidate (getEvents
      (insert (insert (mkLockFreeHashMap Nat Nat (fun x => x) 4) 1 10).1 5 50).1 1) =
      1 := by
  decide

/-- Claim C6 (amended): during every lookup traversal the initial head load
is published and validated once, and at every step the next pointer is
published into the hazard slot before the node it leads to is dereferenced —
but no re-validation against the predecessor's `next` ever follows a step,
so every traversal that takes at least one step violates the claimed
per-step re-validate protocol, and a mid-traversal restart never occurs. -/
theorem claim_C6_amended [DecidableEq V] (m : LockFreeHashMap K V) (key : K) :
    countValidate (getEvents m key) = 1 ∧
    derefsProtectedFrom [] (getEvents m key) = true ∧
    (0 < countSteps (getEvents m key) → stepsRevalidated (getEvents m key) = false) := by
  refine ⟨?_, ?_, ?_⟩
  · simp [getEvents, countValidate]
    simpa [countValidate] using countValidate_getLoopEvents key
      (bucket m (get_bucket_index m key))
  · simp only [getEvents, derefsProtectedFrom]
    exact derefsProtectedFrom_getLoopEvents key (bucket m (get_bucket_index m key))
  · intro hpos
    have hloop : stepsRevalidated (getEvents m key) =
        stepsRevalidated (getLoopEvents key (bucket m (get_bucket_index m key))) := by
      have hhead := getLoopEvents_head_not_validate key (bucket m (get_bucket_index m key))
      rcases hhead with ⟨t, ht⟩ | ⟨n', t, ht⟩ <;>
        simp [getEvents, stepsRevalidated, ht]
    rw [hloop, stepsRevalidated_getLoopEvents]
    rw [countSteps_getEvents] at hpos
    simpa using Nat.pos_iff_ne_zero.mp hpos

/-- Witness for C6 (amended) on a concrete two-node chain. -/
theorem claim_C6_amended_witness :
    stepsRevalidated (getEvents
      (insert (insert (mkLockFreeHashMap Nat Nat (fun x => x) 4) 2 20).1 6 60).1 2) =
      false := by
  have h := claim_C6_amended
    (insert (insert (mkLockFreeHashMap Nat Nat (fun x => x) 4) 2 20).1 6 60).1 2
  exact h.2.2 (by decide)

end LockFreeMap

namespace HazardPointer

/-!
The hazard-pointer manager (`src/include/hazard_pointer.hpp`).  Node
addresses only matter by identity here, so a `T*` is modelled as a `Nat`
(`Ptr`); a hazard slot holds `Option Ptr` (`none` is `nullptr`).  The
per-thread state is indexed by the dense thread index the source assigns on
first contact; the operations take that index as an explicit argument.
-/

/-- A machine pointer, by identity. -/
abbrev Ptr := Nat

def MAX_THREADS : Nat := 128

def MAX_HAZARDS_PER_THREAD : Nat := 2

def RETIRED_THRESHOLD : Nat := 100

/-- An entry of a retired list (`struct RetiredNode`). -/
structure RetiredNode where
  ptr : Ptr
  thread_id : Nat
  deriving DecidableEq, Repr

/-- The manager state: `hazard_pointers[thread][slot]` and
`retired_lists[thread]`. -/
structure HazardPointerManager where
  hazard_pointers : List (List (Option Ptr))
  retired_lists : List (List RetiredNode)
  deriving DecidableEq, Repr

/-- The constructor: `MAX_THREADS` rows of `MAX_HAZARDS_PER_THREAD` null
slots and `MAX_THREADS` empty retired lists. -/
def mkHazardPointerManager : HazardPointerManager :=
  { hazard_pointers :=
      List.replicate MAX_THREADS (List.replicate MAX_HAZARDS_PER_THREAD none)
    retired_lists := List.replicate MAX_THREADS [] }

/-- The scan loop of `get_protected_pointers` (lines 56-63): walk every
thread's hazard slots and push every non-null announcement. -/
def collectAnnouncements (hps : List (List (Option Ptr))) : List Ptr :=
  hps.foldl
    (fun acc row =>
      row.foldl
        (fun acc2 slot =>
          match slot with
          | some p => acc2 ++ [p]
          | none => acc2)
        acc)
    []

/-- `std::unique` on a sorted vector: drop adjacent duplicates. -/
def uniqueAdjacent : List Ptr → List Ptr
  | [] => []
  | [a] => [a]
  | a :: b :: rest =>
    if a = b then uniqueAdjacent (b :: rest) else a :: uniqueAdjacent (b :: rest)

/-- `std::binary_search` over the sorted vector, halving on the middle
element. -/
def binary_search (l : List Ptr) (x : Ptr) : Bool :=
  if h : l.length = 0 then false
  else
    let mid := l.length / 2
    let m := l.getD mid 0
    if x < m then binary_search (l.take mid) x
    else if m < x then binary_search (l.drop (mid + 1)) x
    else true
termination_by l.length
decreasing_by
  · simp only [List.length_take]
    omega
  · simp only [List.length_drop]
    omega

/-- `get_protected_pointers` (lines 53-70): collect all non-null
announcements, sort, deduplicate. -/
def get_protected_pointers (mgr : HazardPointerManager) : List Ptr :=
  uniqueAdjacent (List.insertionSort (· ≤ ·) (collectAnnouncements mgr.hazard_pointers))

/-- `is_protected` (lines 72-74): membership test by binary search. -/
def is_protected (p : Ptr) (protected_ptrs : List Ptr) : Bool :=
  binary_search protected_ptrs p

/-- The partition loop of `reclaim` (lines 140-148): protected entries are
kept (in order), the rest are destroyed (`delete node.ptr`, recorded in
order in the second component). -/
def reclaimLoop (protected_ptrs : List Ptr) :
    List RetiredNode → List RetiredNode × List Ptr
  | [] => ([], [])
  | node :: rest =>
    let sd := reclaimLoop protected_ptrs rest
    if is_protected node.ptr protected_ptrs then (node :: sd.1, sd.2)
    else (sd.1, node.ptr :: sd.2)

/-- `reclaim` (lines 126-151): nothing happens on an empty retired list;
otherwise the caller's retired list is replaced by its protected survivors
and the unprotected pointers are destroyed (returned as the second
component). -/
def reclaim (mgr : HazardPointerManager) (idx : Nat) :
    HazardPointerManager × List Ptr :=
  let retired_list := mgr.retired_lists.getD idx []
  if retired_list.isEmpty then (mgr, [])
  else
    let protected_ptrs := get_protected_pointers mgr
    let sd := reclaimLoop protected_ptrs retired_list
    ({ mgr with retired_lists := mgr.retired_lists.set idx sd.1 }, sd.2)

/-- `retire` (lines 115-123): append to the caller's retired list; when the
list has reached `RETIRED_THRESHOLD`, invoke `reclaim`.  The boolean records
whether `reclaim` was invoked. -/
def retire (mgr : HazardPointerManager) (idx : Nat) (p : Ptr) (tid : Nat) :
    HazardPointerManager × Bool :=
  let new_list := mgr.retired_lists.getD idx [] ++ [RetiredNode.mk p tid]
  let mgr1 : HazardPointerManager :=
    { mgr with retired_lists := mgr.retired_lists.set idx new_list }
  if RETIRED_THRESHOLD ≤ new_list.length then ((reclaim mgr1 idx).1, true)
  else (mgr1, false)

/-! ### Correctness of the scan machinery -/

theorem getD_le_of_mem_drop {l : List Ptr} (hs : l.Sorted (· ≤ ·)) {i : Nat}
    (hi : i < l.length) : ∀ y ∈ l.drop i, l.getD i 0 ≤ y := by
  intro y hy
  have hsd : (l.drop i).Sorted (· ≤ ·) := List.Pairwise.sublist (List.drop_sublist i l) hs
  rw [List.drop_eq_getElem_cons hi] at hsd hy
  rw [List.getD_eq_getElem l 0 hi]
  rcases List.mem_cons.mp hy with rfl | hy2
  · exact le_refl _
  · exact (List.sorted_cons.mp hsd).1 y hy2

theorem le_getD_of_mem_take {l : List Ptr} (hs : l.Sorted (· ≤ ·)) {i : Nat}
    (hi : i < l.length) : ∀ y ∈ l.take (i + 1), y ≤ l.getD i 0 := by
  intro y hy
  rw [List.getD_eq_getElem l 0 hi]
  rw [List.take_succ] at hy
  rcases List.mem_append.mp hy with hy1 | hy2
  · have hpw : List.Pairwise (· ≤ ·) (l.take i ++ l.drop i) := by
      rw [List.take_append_drop]
      exact hs
    have hcross := (List.pairwise_append.mp hpw).2.2
    have hmemi : l[i] ∈ l.drop i := by
      rw [List.drop_eq_getElem_cons hi]
      exact List.mem_cons_self _ _
    exact hcross y hy1 _ hmemi
  · rw [List.getElem?_eq_getElem hi] at hy2
    simp only [Option.toList_some, List.mem_singleton] at hy2
    exact le_of_eq hy2

/-- On a sorted list, the halving search decides membership. -/
theorem binary_search_iff_mem (l : List Ptr) (x : Ptr) :
    l.Sorted (· ≤ ·) → (binary_search l x = true ↔ x ∈ l) := by
  induction l, x using binary_search.induct with
  | case1 l x hlen =>
    intro _
    rw [binary_search]
    simp [hlen, List.length_eq_zero.mp hlen]
  | case2 l x hlen mid m hx ih =>
    intro hs
    have hmid : mid < l.length := by omega
    rw [binary_search]
    rw [dif_neg hlen, if_pos hx]
    rw [ih (List.Pairwise.sublist (List.take_sublist mid l) hs)]
    constructor
    · exact fun hmem => List.take_subset mid l hmem
    · intro hmem
      rw [← List.take_append_drop mid l] at hmem
      rcases List.mem_append.mp hmem with hmem | hmem
      · exact hmem
      · exact absurd hx (not_lt.mpr (getD_le_of_mem_drop hs hmid x hmem))
  | case3 l x hlen mid m hx1 hx2 ih =>
    intro hs
    have hmid : mid < l.length := by omega
    rw [binary_search]
    rw [dif_neg hlen, if_neg hx1, if_pos hx2]
    rw [ih (List.Pairwise.sublist (List.drop_sublist (mid + 1) l) hs)]
    constructor
    · exact fun hmem => List.drop_subset (mid + 1) l hmem
    · intro hmem
      rw [← List.take_append_drop (mid + 1) l] at hmem
      rcases List.mem_append.mp hmem with hmem | hmem
      · exact absurd hx2 (not_lt.mpr (le_getD_of_mem_take hs hmid x hmem))
      · exact hmem
  | case4 l x hlen mid m hx1 hx2 =>
    intro _
    have hmid : mid < l.length := by omega
    have hxm : x = m := le_antisymm (not_lt.mp hx2) (not_lt.mp hx1)
    rw [binary_search]
    rw [dif_neg hlen, if_neg hx1, if_neg hx2]
    simp only [true_iff]
    rw [hxm]
    show l.getD mid 0 ∈ l
    rw [List.getD_eq_getElem l 0 hmid]
    exact List.getElem_mem hmid

theorem uniqueAdjacent_sublist : ∀ l : List Ptr, (uniqueAdjacent l).Sublist l := by
  intro l
  induction l with
  | nil => simp [uniqueAdjacent]
  | cons a tail ih =>
    cases tail with
    | nil => simp [uniqueAdjacent]
    | cons b rest =>
      rw [uniqueAdjacent]
      by_cases hab : a = b
      · rw [if_pos hab]
        exact ih.cons a
      · rw [if_neg hab]
        exact ih.cons₂ a

theorem mem_uniqueAdjacent {x : Ptr} : ∀ {l : List Ptr}, x ∈ uniqueAdjacent l ↔ x ∈ l := by
  intro l
  induction l with
  | nil => simp [uniqueAdjacent]
  | cons a tail ih =>
    cases tail with
    | nil => simp [uniqueAdjacent]
    | cons b rest =>
      rw [uniqueAdjacent]
      by_cases hab : a = b
      · rw [if_pos hab]
        subst hab
        rw [ih]
        simp
      · rw [if_neg hab]
        simp [ih]

theorem sorted_get_protected_pointers (mgr : HazardPointerManager) :
    (get_protected_pointers mgr).Sorted (· ≤ ·) :=
  List.Pairwise.sublist (uniqueAdjacent_sublist _)
    (List.sorted_insertionSort (· ≤ ·) (collectAnnouncements mgr.hazard_pointers))

theorem mem_get_protected_pointers (mgr : HazardPointerManager) (p : Ptr) :
    p ∈ get_protected_pointers mgr ↔ p ∈ collectAnnouncements mgr.hazard_pointers := by
  rw [get_protected_pointers, mem_uniqueAdjacent]
  exact (List.perm_insertionSort (· ≤ ·) (collectAnnouncements mgr.hazard_pointers)).mem_iff

/-- The protected-set membership test of the source: binary search over the
sorted deduplicated announcements decides membership in the raw
announcement list. -/
theorem is_protected_iff (mgr : HazardPointerManager) (p : Ptr) :
    is_protected p (get_protected_pointers mgr) = true ↔
      p ∈ collectAnnouncements mgr.hazard_pointers := by
  rw [is_protected, binary_search_iff_mem _ _ (sorted_get_protected_pointers mgr)]
  exact mem_get_protected_pointers mgr p

theorem is_protected_eq_decide (mgr : HazardPointerManager) (p : Ptr) :
    is_protected p (get_protected_pointers mgr) =
      decide (p ∈ collectAnnouncements mgr.hazard_pointers) := by
  cases hb : is_protected p (get_protected_pointers mgr)
  · have hnot : p ∉ collectAnnouncements mgr.hazard_pointers := fun hm => by
      rw [← is_protected_iff mgr p] at hm
      rw [hb] at hm
      exact Bool.false_ne_true hm
    simp [hnot]
  · simp [(is_protected_iff mgr p).mp hb]

theorem mem_row_foldl (row : List (Option Ptr)) (acc : List Ptr) (x : Ptr) :
    (x ∈ row.foldl
        (fun acc2 slot =>
          match slot with
          | some p => acc2 ++ [p]
          | none => acc2)
        acc) ↔ x ∈ acc ∨ some x ∈ row := by
  induction row generalizing acc with
  | nil => simp
  | cons s rest ih =>
    cases s with
    | none =>
      rw [List.foldl_cons, ih]
      simp
    | some p =>
      rw [List.foldl_cons, ih]
      simp [or_assoc, or_comm (a := x = p)]

theorem mem_collectAnnouncements (hps : List (List (Option Ptr))) (x : Ptr) :
    x ∈ collectAnnouncements hps ↔ ∃ row ∈ hps, some x ∈ row := by
  rw [collectAnnouncements]
  have hgen : ∀ acc : List Ptr,
      (x ∈ hps.foldl
          (fun acc row =>
            row.foldl
              (fun acc2 slot =>
                match slot with
                | some p => acc2 ++ [p]
                | none => acc2)
              acc)
          acc) ↔ x ∈ acc ∨ ∃ row ∈ hps, some x ∈ row := by
    induction hps with
    | nil => simp
    | cons row rest ih =>
      intro acc
      rw [List.foldl_cons, ih, mem_row_foldl]
      simp [or_assoc]
  simpa using hgen []

theorem reclaimLoop_eq (prot : List Ptr) (rl : List RetiredNode) :
    reclaimLoop prot rl =
      (rl.filter (fun n => is_protected n.ptr prot),
       (rl.filter (fun n => ! is_protected n.ptr prot)).map RetiredNode.ptr) := by
  induction rl with
  | nil => rfl
  | cons node rest ih =>
    rw [reclaimLoop, ih]
    by_cases hp : is_protected node.ptr prot <;> simp [List.filter_cons, hp]

/-- Claim C7: `reclaim` is the identity on an empty retired list; otherwise
it destroys exactly the retired pointers outside the protected set — the
deduplicated union of all non-null hazard announcements, decided by binary
search over the sorted array — and leaves exactly the protected survivors on
the caller's retired list, touching no hazard slot and no other thread's
retired list. -/
theorem claim_C7 (mgr : HazardPointerManager) (idx : Nat) :
    (mgr.retired_lists.getD idx [] = [] → reclaim mgr idx = (mgr, [])) ∧
    (∀ q : Ptr, q ∈ collectAnnouncements mgr.hazard_pointers ↔
      ∃ row ∈ mgr.hazard_pointers, some q ∈ row) ∧
    (mgr.retired_lists.getD idx [] ≠ [] →
      (reclaim mgr idx).2 =
        ((mgr.retired_lists.getD idx []).filter
          (fun n => ! decide (n.ptr ∈ collectAnnouncements mgr.hazard_pointers))).map
          RetiredNode.ptr ∧
      (reclaim mgr idx).1.retired_lists =
        mgr.retired_lists.set idx
          ((mgr.retired_lists.getD idx []).filter
            (fun n => decide (n.ptr ∈ collectAnnouncements mgr.hazard_pointers))) ∧
      (reclaim mgr idx).1.hazard_pointers = mgr.hazard_pointers) := by
  refine ⟨?_, fun q => mem_collectAnnouncements mgr.hazard_pointers q, ?_⟩
  · intro hempty
    rw [reclaim, hempty]
    simp
  · intro hne
    have hemp : (mgr.retired_lists.getD idx []).isEmpty = false := by
      simpa [List.isEmpty_iff] using hne
    have hfilt1 : (mgr.retired_lists.getD idx []).filter
        (fun n => is_protected n.ptr (get_protected_pointers mgr)) =
        (mgr.retired_lists.getD idx []).filter
          (fun n => decide (n.ptr ∈ collectAnnouncements mgr.hazard_pointers)) :=
      List.filter_congr (fun n _ => is_protected_eq_decide mgr n.ptr)
    have hfilt2 : (mgr.retired_lists.getD idx []).filter
        (fun n => ! is_protected n.ptr (get_protected_pointers mgr)) =
        (mgr.retired_lists.getD idx []).filter
          (fun n => ! decide (n.ptr ∈ collectAnnouncements mgr.hazard_pointers)) :=
      List.filter_congr (fun n _ => by rw [is_protected_eq_decide mgr n.ptr])
    have hrec : reclaim mgr idx =
        ({ mgr with
            retired_lists :=
              mgr.retired_lists.set idx
                ((mgr.retired_lists.getD idx []).filter
                  (fun n => is_protected n.ptr (get_protected_pointers mgr))) },
         ((mgr.retired_lists.getD idx []).filter
            (fun n => ! is_protected n.ptr (get_protected_pointers mgr))).map
            RetiredNode.ptr) := by
      rw [reclaim]
      simp only [hemp, Bool.false_eq_true, if_false, reclaimLoop_eq]
    refine ⟨?_, ?_, ?_⟩
    · rw [hrec, ← hfilt2]
    · rw [hrec, ← hfilt1]
    · rw [hrec]

/-- Witness for C7: one announced pointer 3 and a retired list `[3, 4]`;
`reclaim` destroys exactly `4` and keeps exactly the node holding `3`. -/
theorem claim_C7_witness :
    (reclaim
      { hazard_pointers := [[some 3, none]]
        retired_lists := [[RetiredNode.mk 3 0, RetiredNode.mk 4 0]] } 0).2 = [4] ∧
    (reclaim
      { hazard_pointers := [[some 3, none]]
        retired_lists := [[RetiredNode.mk 3 0, RetiredNode.mk 4 0]] } 0).1.retired_lists =
      [[RetiredNode.mk 3 0]] := by
  have h := (claim_C7
    { hazard_pointers := [[some 3, none]]
      retired_lists := [[RetiredNode.mk 3 0, RetiredNode.mk 4 0]] } 0).2.2 (by decide)
  refine ⟨?_, ?_⟩
  · rw [h.1]
    decide
  · rw [h.2.1]
    decide

/-- Claim C8: `retire(p)` appends `p` to the caller's retired list and
invokes `reclaim` if and only if the retired list has reached the fixed
threshold of 100 entries after the append. -/
theorem claim_C8 (mgr : HazardPointerManager) (idx : Nat) (p : Ptr) (tid : Nat) :
    ((retire mgr idx p tid).2 = true ↔
      100 ≤ (mgr.retired_lists.getD idx []).length + 1) ∧
    RETIRED_THRESHOLD = 100 ∧
    ((retire mgr idx p tid).2 = false →
      (retire mgr idx p tid).1 =
        { mgr with
            retired_lists :=
              mgr.retired_lists.set idx
                (mgr.retired_lists.getD idx [] ++ [RetiredNode.mk p tid]) }) ∧
    ((retire mgr idx p tid).2 = true →
      (retire mgr idx p tid).1 =
        (reclaim
          { mgr with
              retired_lists :=
                mgr.retired_lists.set idx
                  (mgr.retired_lists.getD idx [] ++ [RetiredNode.mk p tid]) }
          idx).1) := by
  have hkey : (retire mgr idx p tid).2 = true ↔
      100 ≤ (mgr.retired_lists.getD idx []).length + 1 := by
    simp only [retire]
    by_cases hth : RETIRED_THRESHOLD ≤
        (mgr.retired_lists.getD idx [] ++ [RetiredNode.mk p tid]).length
    · rw [if_pos hth]
      simpa [RETIRED_THRESHOLD] using hth
    · rw [if_neg hth]
      simp only [Bool.false_eq_true, false_iff]
      simpa [RETIRED_THRESHOLD] using hth
  refine ⟨hkey, rfl, ?_, ?_⟩
  · intro hfalse
    simp only [retire] at hfalse ⊢
    by_cases hth : RETIRED_THRESHOLD ≤
        (mgr.retired_lists.getD idx [] ++ [RetiredNode.mk p tid]).length
    · rw [if_pos hth] at hfalse
      exact absurd hfalse (by simp)
    · rw [if_neg hth]
  · intro htrue
    simp only [retire] at htrue ⊢
    by_cases hth : RETIRED_THRESHOLD ≤
        (mgr.retired_lists.getD idx [] ++ [RetiredNode.mk p tid]).length
    · rw [if_pos hth]
    · rw [if_neg hth] at htrue
      exact absurd htrue (by simp)

/-- Witness for C8: a 99-entry retired list reaches the threshold on the
next `retire` (which then reclaims: the list empties, nothing is announced),
while a fresh manager stays far below it. -/
theorem claim_C8_witness :
    (retire
      { hazard_pointers := [[none, none]]
        retired_lists := [List.replicate 99 (RetiredNode.mk 5 0)] } 0 7 1).2 = true ∧
    (retire mkHazardPointerManager 0 5 7).2 = false := by
  constructor
  · exact (claim_C8
      { hazard_pointers := [[none, none]]
        retired_lists := [List.replicate 99 (RetiredNode.mk 5 0)] } 0 7 1).1.mpr
      (by decide)
  · have h := (claim_C8 mkHazardPointerManager 0 5 7).1
    cases hb : (retire mkHazardPointerManager 0 5 7).2
    · rfl
    · exact absurd (h.mp hb) (by decide)

end HazardPointer
